import Mathlib

/-!
Verification of the fingerprinting and tag-resolution core of the
lazy-docker-build-push-action repository (src/main.py).

The Python program is shallowly embedded as follows.

* Python strings are modelled as lists of characters (PyStr).  All string
  values appearing in the program and in the claims are ASCII, and the model
  of the Python primitives (strip, splitlines, split, repr, upper) is
  faithful on ASCII strings.
* The process environment (the InputSource collaborator) is a total function
  from variable name to value, with the empty string standing for an absent
  variable, exactly as os.environ.get(name, "") behaves in the source.
* The filesystem is a total function from path to file bytes (bytes are
  natural numbers below 256).  The claims under study all fix the byte
  contents of every referenced file, so unreadable files are out of scope.
* Filesystem paths are modelled by their string form; the model assumes the
  caller passes normalised paths (no "." segments, no duplicate slashes),
  and Path ordering is string ordering, as on POSIX.
* SHA-256 is implemented in full (FIPS 180-4) over lists of byte values, so
  that fingerprints are genuine digests and concrete fingerprints can be
  evaluated inside proofs.
* Raising an exception is modelled by the Res result type; the observable
  actions of main (file reads during hashing, existence queries, output
  emission) are recorded in an event trace in program order.
-/

set_option maxRecDepth 100000

namespace LazyDocker

/-! ## SHA-256 over byte lists (FIPS 180-4) -/

/-- Truncate a natural number to a 32-bit word. -/
def w32 (n : Nat) : Nat := n % 4294967296

/-- Right rotation of a 32-bit word by k bits. -/
def rotr (k x : Nat) : Nat := w32 ((x >>> k) ||| (x <<< (32 - k)))

/-- SHA-256 big sigma 0. -/
def bsig0 (x : Nat) : Nat := (rotr 2 x) ^^^ (rotr 13 x) ^^^ (rotr 22 x)

/-- SHA-256 big sigma 1. -/
def bsig1 (x : Nat) : Nat := (rotr 6 x) ^^^ (rotr 11 x) ^^^ (rotr 25 x)

/-- SHA-256 small sigma 0. -/
def ssig0 (x : Nat) : Nat := (rotr 7 x) ^^^ (rotr 18 x) ^^^ (x >>> 3)

/-- SHA-256 small sigma 1. -/
def ssig1 (x : Nat) : Nat := (rotr 17 x) ^^^ (rotr 19 x) ^^^ (x >>> 10)

/-- SHA-256 choice function. -/
def chf (x y z : Nat) : Nat := (x &&& y) ^^^ ((x ^^^ 4294967295) &&& z)

/-- SHA-256 majority function. -/
def majf (x y z : Nat) : Nat := (x &&& y) ^^^ (x &&& z) ^^^ (y &&& z)

/-- The 64 SHA-256 round constants. -/
def shaK : List Nat :=
  [1116352408, 1899447441, 3049323471, 3921009573, 961987163,
   1508970993, 2453635748, 2870763221, 3624381080, 310598401,
   607225278, 1426881987, 1925078388, 2162078206, 2614888103,
   3248222580, 3835390401, 4022224774, 264347078, 604807628,
   770255983, 1249150122, 1555081692, 1996064986, 2554220882,
   2821834349, 2952996808, 3210313671, 3336571891, 3584528711,
   113926993, 338241895, 666307205, 773529912, 1294757372,
   1396182291, 1695183700, 1986661051, 2177026350, 2456956037,
   2730485921, 2820302411, 3259730800, 3345764771, 3516065817,
   3600352804, 4094571909, 275423344, 430227734, 506948616,
   659060556, 883997877, 958139571, 1322822218, 1537002063,
   1747873779, 1955562222, 2024104815, 2227730452, 2361852424,
   2428436474, 2756734187, 3204031479, 3329325298]

/-- The SHA-256 initial hash state. -/
def shaH0 : List Nat :=
  [1779033703, 3144134277, 1013904242, 2773480762, 1359893119,
   2600822924, 528734635, 1541459225]

/-- Append the SHA-256 padding: a 0x80 byte, zeros, and the 64-bit big-endian
bit length, reaching a multiple of 64 bytes. -/
def padBytes (msg : List Nat) : List Nat :=
  let len := msg.length
  let zeros := (120 - (len + 1) % 64) % 64
  msg ++ [128] ++ List.replicate zeros 0 ++
    (List.range 8).map (fun i => ((len * 8) >>> ((7 - i) * 8)) % 256)

/-- Fuel-indexed list chunking helper (structural, so it reduces in the kernel). -/
def chunksAux {α : Type} (n : Nat) : Nat → List α → List (List α)
  | 0, _ => []
  | _, [] => []
  | fuel + 1, l => l.take n :: chunksAux n fuel (l.drop n)

/-- Split a list into consecutive chunks of length n. -/
def chunks {α : Type} (n : Nat) (l : List α) : List (List α) := chunksAux n l.length l

/-- Assemble four big-endian bytes into a 32-bit word. -/
def bytesToWord : List Nat → Nat
  | [b0, b1, b2, b3] => b0 <<< 24 ||| b1 <<< 16 ||| b2 <<< 8 ||| b3
  | _ => 0

/-- Extend the message schedule; the accumulator holds the words most recent
first. -/
def extendW : Nat → List Nat → List Nat
  | 0, r => r
  | k + 1, r =>
    extendW k (w32 (ssig1 (r.getD 1 0) + r.getD 6 0 + ssig0 (r.getD 14 0) + r.getD 15 0) :: r)

/-- The 64-entry SHA-256 message schedule of a 16-word block. -/
def schedule (ws : List Nat) : List Nat := (extendW 48 ws.reverse).reverse

/-- One SHA-256 compression round on the eight-word working state. -/
def compressStep (st : List Nat) (wk : Nat × Nat) : List Nat :=
  match st with
  | [a, b, c, d, e, f, g, h] =>
    let t1 := w32 (h + bsig1 e + chf e f g + wk.1 + wk.2)
    let t2 := w32 (bsig0 a + majf a b c)
    [w32 (t1 + t2), a, b, c, w32 (d + t1), e, f, g]
  | other => other

/-- Process one 64-byte block, updating the eight-word hash state. -/
def processBlock (H : List Nat) (block : List Nat) : List Nat :=
  let ws := schedule ((chunks 4 block).map bytesToWord)
  let st := (ws.zip shaK).foldl compressStep H
  (H.zip st).map (fun p => w32 (p.1 + p.2))

/-- Lowercase hexadecimal digit. -/
def hexChar (n : Nat) : Char := Char.ofNat (if n < 10 then 48 + n else 87 + n)

/-- Eight-digit lowercase hexadecimal rendering of a 32-bit word. -/
def wordHex (w : Nat) : List Char := (List.range 8).map (fun i => hexChar ((w >>> ((7 - i) * 4)) % 16))

/-- The lowercase hexadecimal SHA-256 digest of a byte list, as the
hexdigest method of hashlib.sha256 returns it. -/
def sha256hex (msg : List Nat) : List Char :=
  (((chunks 64 (padBytes msg)).foldl processBlock shaH0).map wordHex).flatten

/-- SHA-256 model check: the standard digest of the empty message. -/
theorem sha256hex_empty_vector :
    sha256hex [] = "e3b0c44298fc1c149afbf4c8996fb92427ae41e4649b934ca495991b7852b855".data := by
  decide

/-- SHA-256 model check: the standard digest of the three-byte message abc. -/
theorem sha256hex_abc_vector :
    sha256hex [97, 98, 99] = "ba7816bf8f01cfea414140de5dae2223b00361a396177a9cb410ff61f20015ad".data := by
  decide

/-- SHA-256 model check: a 200-byte message, exercising multiple blocks. -/
theorem sha256hex_long_vector :
    sha256hex (List.replicate 200 97) =
      "c2a908d98f5df987ade41b5fce213067efbcc21ef2240212a41e54b5e7c28ae5".data := by
  decide

/-! ## Python string primitives, modelled on ASCII strings -/

/-- A Python string, modelled as its list of characters. -/
abbrev PyStr := List Char

/-- The whitespace characters stripped by the Python strip method
(space, tab, newline, carriage return, vertical tab, form feed). -/
def isPySpace (c : Char) : Bool :=
  c = ' ' || c = Char.ofNat 9 || c = Char.ofNat 10 || c = Char.ofNat 13 ||
  c = Char.ofNat 11 || c = Char.ofNat 12

/-- Model of the Python strip method: remove leading and trailing whitespace. -/
def pyStrip (s : PyStr) : PyStr :=
  ((s.dropWhile isPySpace).reverse.dropWhile isPySpace).reverse

/-- Model of the Python splitlines method: split at newline, carriage return,
or carriage return plus newline; a trailing line break opens no empty final
line, and the empty string has no lines. -/
def pySplitlinesAux : List Char → List Char → List PyStr
  | acc, [] => if acc = [] then [] else [acc.reverse]
  | acc, c :: cs =>
    if c = Char.ofNat 13 then
      match cs with
      | d :: ds =>
        if d = Char.ofNat 10 then acc.reverse :: pySplitlinesAux [] ds
        else acc.reverse :: pySplitlinesAux [] (d :: ds)
      | [] => [acc.reverse]
    else if c = Char.ofNat 10 then acc.reverse :: pySplitlinesAux [] cs
    else pySplitlinesAux (c :: acc) cs

/-- Model of the Python splitlines method. -/
def pySplitlines (s : PyStr) : List PyStr := pySplitlinesAux [] s

/-- Model of the Python split method with a comma separator: empty pieces are
kept, and the empty string yields one empty piece. -/
def splitComma : List Char → List PyStr
  | [] => [[]]
  | c :: cs =>
    if c = ',' then [] :: splitComma cs
    else
      match splitComma cs with
      | [] => [[c]]
      | p :: ps => (c :: p) :: ps

/-- The apostrophe character, the default quote of the Python repr of a string. -/
def quoteChar : Char := Char.ofNat 39

/-- The quote chosen by the Python repr of a string: an apostrophe, unless the
string contains an apostrophe and no double quote. -/
def reprQuote (s : PyStr) : Char :=
  if quoteChar ∈ s ∧ '"' ∉ s then '"' else quoteChar

/-- How one character is rendered inside the Python repr of a string
(faithful for ASCII payloads). -/
def reprEscapeChar (q c : Char) : PyStr :=
  if c = '\\' ∨ c = q then ['\\', c]
  else if c = Char.ofNat 9 then ['\\', 't']
  else if c = Char.ofNat 10 then ['\\', 'n']
  else if c = Char.ofNat 13 then ['\\', 'r']
  else if c.toNat < 32 ∨ c.toNat = 127 then ['\\', 'x', hexChar (c.toNat / 16), hexChar (c.toNat % 16)]
  else [c]

/-- Model of the Python repr of a string (faithful for ASCII strings). -/
def pyRepr (s : PyStr) : PyStr :=
  reprQuote s :: (s.map (reprEscapeChar (reprQuote s))).flatten ++ [reprQuote s]

/-- Model of the Python partition method at the first colon, keeping the parts
before and after it; with no colon present the second part is empty, exactly as
the name and tag components are consumed in the source. -/
def partColon : List Char → PyStr × PyStr
  | [] => ([], [])
  | c :: cs =>
    if c = ':' then ([], cs)
    else
      let p := partColon cs
      (c :: p.1, p.2)

/-- Python string comparison (by code point, left to right). -/
def strLe : List Char → List Char → Bool
  | [], _ => true
  | _ :: _, [] => false
  | a :: as, b :: bs =>
    if a < b then true
    else if b < a then false
    else strLe as bs

/-- The comparison relation used for the sorted builtin on strings and paths. -/
def strLeR (a b : PyStr) : Prop := strLe a b = true

instance : DecidableRel strLeR := fun _ _ => inferInstanceAs (Decidable (_ = true))

/-- Model of the Python sorted builtin on strings: sort by code-point order. -/
def sortStrs (l : List PyStr) : List PyStr := List.insertionSort strLeR l

/-- UTF-8 bytes of an ASCII string value, as the encode method produces them. -/
def encode (s : PyStr) : List Nat := s.map Char.toNat

/-! ## The InputSource collaborator and the error model -/

/-- The process environment: total map from variable name to value, the empty
string standing for an absent variable. -/
abbrev Env := PyStr → PyStr

/-- The filesystem: total map from path to file byte contents. -/
abbrev FS := PyStr → List Nat

/-- The exceptions the embedded fragment of the program can raise:
MissingInput from get_input, IndexError from indexing the first content tag,
and AssertionError from the assert statement in main. -/
inductive PyError
  | missingInput (name : PyStr)
  | indexError
  | assertionError
deriving DecidableEq

/-- Result of a Python call: a value, or a raised exception. -/
inductive Res (α : Type)
  | ok (a : α)
  | error (e : PyError)
deriving DecidableEq

/-- Map over the value of a result. -/
def Res.map {α β : Type} (f : α → β) : Res α → Res β
  | .ok a => .ok (f a)
  | .error e => .error e

/-- Name mangling of one character for the INPUT_ environment convention:
spaces become underscores and ASCII letters are uppercased. -/
def mangleChar (c : Char) : Char :=
  if c = ' ' then '_'
  else if 97 ≤ c.toNat ∧ c.toNat ≤ 122 then Char.ofNat (c.toNat - 32)
  else c

/-- The environment variable holding a named input. -/
def inputEnvName (name : PyStr) : PyStr := "INPUT_".data ++ name.map mangleChar

/-- Source _get_input: read the raw value of a named input from the
environment, defaulting to the empty string. -/
def _get_input (env : Env) (name : PyStr) : PyStr := env (inputEnvName name)

/-- The stripped value of a named input, which get_input returns when it does
not raise. -/
def get_input_value (env : Env) (name : PyStr) : PyStr := pyStrip (_get_input env name)

/-- Source get_input: raise MissingInput when a required input has an empty
raw value, else return the stripped value.  The required check reads the raw,
unstripped value. -/
def get_input (env : Env) (name : PyStr) (required : Bool) : Res PyStr :=
  if required = true ∧ _get_input env name = [] then .error (.missingInput name)
  else .ok (get_input_value env name)

/-- Source _get_list: split on line breaks, split each line on commas, strip
every token, and flatten. -/
def _get_list (value : PyStr) : List PyStr :=
  ((pySplitlines value).map (fun line => (splitComma line).map pyStrip)).flatten

/-- Source _get_input_list: the list form of a named input. -/
def _get_input_list (env : Env) (name : PyStr) (required : Bool) : Res (List PyStr) :=
  (get_input env name required).map _get_list

/-- Source get_tags: the required tags input, as a list. -/
def get_tags (env : Env) : Res (List PyStr) := _get_input_list env "tags".data true

/-- Join a directory and a file name as the Path division operator does
(on normalised paths; a dot directory disappears). -/
def pathJoin (base name : PyStr) : PyStr :=
  if base = ".".data then name else base ++ ['/'] ++ name

/-- Source get_dockerfile: the file input if set, else Dockerfile inside the
context input, which defaults to the current directory. -/
def get_dockerfile (env : Env) : PyStr :=
  let f := get_input_value env "file".data
  if f ≠ [] then f
  else
    let c := get_input_value env "context".data
    pathJoin (if c = [] then ".".data else c) "Dockerfile".data

/-! ## The FingerprintEngine: compute_hash -/

/-- The fixed recognized-input tuple DOCKER_INPUTS, in source declaration
order. -/
def DOCKER_INPUTS : List PyStr :=
  ["annotations".data, "build-args".data, "build-contexts".data,
   "target".data, "ulimit".data, "labels".data]

/-- The bytes hashed for one recognized named input. -/
def dockerLine (env : Env) (name : PyStr) : List Nat :=
  encode ("docker:".data ++ name ++ "=".data ++ pyRepr (get_input_value env name) ++ [Char.ofNat 10])

/-- The list of file paths compute_hash visits: the extra files plus the
resolved Dockerfile path, sorted. -/
def sortedFiles (env : Env) (filenames : List PyStr) : List PyStr :=
  sortStrs (filenames ++ [get_dockerfile env])

/-- The bytes hashed for one file: a path-delimiter record, the raw file
bytes, and a trailing delimiter. -/
def fileRecord (fs : FS) (p : PyStr) : List Nat :=
  encode ("file:".data ++ p ++ "\n----\n".data) ++ fs p ++ encode "\n----\n".data

/-- The canonical byte stream compute_hash feeds to SHA-256, assembled in the
order the source updates the hasher. -/
def canonicalStream (env : Env) (fs : FS) (filenames : List PyStr) : List Nat :=
  ((sortStrs DOCKER_INPUTS).map (dockerLine env)).flatten ++
  ((sortedFiles env filenames).map (fileRecord fs)).flatten

/-- Source compute_hash: the content-hash fingerprint of the named inputs and
file contents. -/
def compute_hash (env : Env) (fs : FS) (filenames : List PyStr) : PyStr :=
  "content-hash-".data ++ sha256hex (canonicalStream env fs filenames)

/-! ## The TagResolver: get_image_names -/

/-- Add a tag to a tag set, modelled as a duplicate-free list in insertion
order. -/
def addTag (tags : List PyStr) (t : PyStr) : List PyStr :=
  if t ∈ tags then tags else tags ++ [t]

/-- Whether an image name is already a key of the images mapping. -/
def hasName (m : List (PyStr × List PyStr)) (n : PyStr) : Bool :=
  m.any (fun p => p.1 = n)

/-- Add a tag to the entry of an existing image name. -/
def addToName (n t : PyStr) : List (PyStr × List PyStr) → List (PyStr × List PyStr)
  | [] => []
  | p :: ps => if p.1 = n then (p.1, addTag p.2 t) :: ps else p :: addToName n t ps

/-- One loop iteration of get_image_names: split the tag spec at the first
colon; accessing the defaultdict creates the entry with the fingerprint tag
when the name is new; a nonempty explicit tag is added to the set. -/
def imagesStep (F : PyStr) (m : List (PyStr × List PyStr)) (spec : PyStr) :
    List (PyStr × List PyStr) :=
  let nt := partColon spec
  if hasName m nt.1 then
    if nt.2 ≠ [] then addToName nt.1 nt.2 m else m
  else
    m ++ [(nt.1, if nt.2 ≠ [] then addTag [F] nt.2 else [F])]

/-- The images mapping built by the loop of get_image_names, as an association
list in key insertion order (Python dicts preserve insertion order). -/
def imagesOf (F : PyStr) (specs : List PyStr) : List (PyStr × List PyStr) :=
  specs.foldl (imagesStep F) []

/-- The pure tail of get_image_names: expand the images mapping into the full
tag list and the one content tag per image name. -/
def resolveTags (specs : List PyStr) (F : PyStr) : List PyStr × List PyStr :=
  let m := imagesOf F specs
  (((m.map (fun p => p.2.map (fun t => p.1 ++ [':'] ++ t))).flatten),
   m.map (fun p => p.1 ++ [':'] ++ F))

/-- Source get_image_names: read the tags input and resolve it against the
content hash tag. -/
def get_image_names (env : Env) (F : PyStr) : Res (List PyStr × List PyStr) :=
  (get_tags env).map (fun tags => resolveTags tags F)

/-! ## The Orchestrator: main, with its observable event trace -/

/-- An output value: a plain string, a boolean, or a list joined by newlines. -/
inductive OutVal
  | str (s : PyStr)
  | bool (b : Bool)
  | list (l : List PyStr)
deriving DecidableEq

/-- An observable action of main, in program order: a file read during
hashing, an image existence query, or an emitted output. -/
inductive Event
  | readFile (path : PyStr)
  | checkImage (nameTag : PyStr) (result : Bool)
  | output (name : PyStr) (v : OutVal)
deriving DecidableEq

/-- Source main: compute the fingerprint (reading every hashed file), resolve
the tags, query existence of each content tag, and emit the outputs.  The
returned trace lists the observable actions in program order; the second
component is the exception main raises, if any.  The assert statement in main
is modelled as raising AssertionError when its condition fails. -/
def main (env : Env) (fs : FS) (ex : PyStr → Bool) (extra_files : List PyStr) :
    List Event × Option PyError :=
  let h := compute_hash env fs extra_files
  let readEv := (sortedFiles env extra_files).map Event.readFile
  match get_image_names env h with
  | .error e => (readEv, some e)
  | .ok tags =>
    let all_tags := tags.1
    let content_hashed := tags.2
    let checks := content_hashed.map (fun x => (x, ex x))
    let ev1 := readEv ++ checks.map (fun c => Event.checkImage c.1 c.2)
    let tagExisted := checks.any (fun c => c.2)
    let ev2 := ev1 ++
      [Event.output "tags".data (.list all_tags),
       Event.output "tag-existed".data (.bool tagExisted),
       Event.output "build-required".data (.bool (!tagExisted))]
    match content_hashed with
    | [] => (ev2, some .indexError)
    | nameTag :: _ =>
      let nt := partColon nameTag
      if h = nt.2 then
        (ev2 ++
          [Event.output "image-name".data (.str nt.1),
           Event.output "image-tag".data (.str nt.2),
           Event.output "image-name-tag".data (.str nameTag)], none)
      else (ev2, some .assertionError)

/-- The output-selecting projection of an event. -/
def outSel (n : PyStr) : Event → Option OutVal
  | .output m v => if m = n then some v else none
  | _ => none

/-- The value main emitted under an output name, if any. -/
def outputValue (evts : List Event) (n : PyStr) : Option OutVal :=
  (evts.filterMap (outSel n)).head?

/-! ## Order properties of the string comparison -/

/-- Two characters neither of which is below the other are equal. -/
theorem Char.eq_of_not_lt_of_not_lt {a b : Char} (h₁ : ¬a < b) (h₂ : ¬b < a) : a = b :=
  le_antisymm (not_lt.mp h₂) (not_lt.mp h₁)

/-- The string comparison is total. -/
theorem strLe_total (a b : List Char) : strLe a b = true ∨ strLe b a = true := by
  induction a generalizing b with
  | nil => left; rfl
  | cons x xs ih =>
    cases b with
    | nil => right; rfl
    | cons y ys =>
      by_cases h1 : x < y
      · left; simp [strLe, h1]
      · by_cases h2 : y < x
        · right; simp [strLe, h2]
        · rcases ih ys with h | h
          · left; simp [strLe, h1, h2, h]
          · right; simp [strLe, h1, h2, h]

/-- The string comparison is transitive. -/
theorem strLe_trans {a b c : List Char} (hab : strLe a b = true) (hbc : strLe b c = true) :
    strLe a c = true := by
  induction a generalizing b c with
  | nil => rfl
  | cons x xs ih =>
    cases b with
    | nil => simp [strLe] at hab
    | cons y ys =>
      cases c with
      | nil => simp [strLe] at hbc
      | cons z zs =>
        by_cases hxy : x < y
        · by_cases hyz : y < z
          · simp [strLe, lt_trans hxy hyz]
          · by_cases hzy : z < y
            · simp [strLe, hyz, hzy] at hbc
            · have : y = z := Char.eq_of_not_lt_of_not_lt hyz hzy
              subst this
              simp [strLe, hxy]
        · by_cases hyx : y < x
          · simp [strLe, hxy, hyx] at hab
          · have hx : x = y := Char.eq_of_not_lt_of_not_lt hxy hyx
            subst hx
            have hab' : strLe xs ys = true := by simpa [strLe, lt_irrefl] using hab
            by_cases hyz : x < z
            · simp [strLe, hyz]
            · by_cases hzy : z < x
              · simp [strLe, hyz, hzy] at hbc
              · have hbc' : strLe ys zs = true := by simpa [strLe, hyz, hzy] using hbc
                simpa [strLe, hyz, hzy] using ih hab' hbc'

/-- The string comparison is antisymmetric. -/
theorem strLe_antisymm {a b : List Char} (hab : strLe a b = true) (hba : strLe b a = true) :
    a = b := by
  induction a generalizing b with
  | nil =>
    cases b with
    | nil => rfl
    | cons y ys => simp [strLe] at hba
  | cons x xs ih =>
    cases b with
    | nil => simp [strLe] at hab
    | cons y ys =>
      by_cases hxy : x < y
      · simp [strLe, hxy, asymm hxy] at hba
      · by_cases hyx : y < x
        · simp [strLe, hxy, hyx] at hab
        · have hx : x = y := Char.eq_of_not_lt_of_not_lt hxy hyx
          subst hx
          have hab' : strLe xs ys = true := by simpa [strLe, lt_irrefl] using hab
          have hba' : strLe ys xs = true := by simpa [strLe, lt_irrefl] using hba
          rw [ih hab' hba']

instance : IsTotal PyStr strLeR := ⟨strLe_total⟩

instance : IsTrans PyStr strLeR := ⟨fun _ _ _ => strLe_trans⟩

instance : IsAntisymm PyStr strLeR := ⟨fun _ _ => strLe_antisymm⟩

/-- Sorting a list of strings yields a permutation of it. -/
theorem sortStrs_perm (l : List PyStr) : (sortStrs l).Perm l :=
  List.perm_insertionSort _ l

/-- Sorting a list of strings sorts it. -/
theorem sortStrs_sorted (l : List PyStr) : List.Sorted strLeR (sortStrs l) :=
  List.sorted_insertionSort _ l

/-- Sorting identifies lists up to permutation. -/
theorem sortStrs_eq_of_perm {l₁ l₂ : List PyStr} (h : l₁.Perm l₂) : sortStrs l₁ = sortStrs l₂ :=
  List.eq_of_perm_of_sorted ((sortStrs_perm l₁).trans (h.trans (sortStrs_perm l₂).symm))
    (sortStrs_sorted l₁) (sortStrs_sorted l₂)

/-! ## Concrete environments used in evaluations -/

/-- An environment with every variable absent. -/
def envNone : Env := fun _ => []

/-- An environment equal to envNone except on a variable no input reads. -/
def envNoise : Env := fun k => if k = "UNRELATED".data then "x".data else []

/-- An environment whose tags input value is a single space. -/
def envBlankTags : Env := fun k => if k = "INPUT_TAGS".data then [' '] else []

/-- An environment declaring the single tag spec user/app. -/
def envUserApp : Env := fun k => if k = "INPUT_TAGS".data then "user/app".data else []

/-- A filesystem in which every file is empty. -/
def fsNone : FS := fun _ => []

/-- An existence oracle that reports every image as absent. -/
def exNone : PyStr → Bool := fun _ => false

/-- Model cross-check: the fingerprint of the empty environment and an empty
Dockerfile, independently computed with CPython hashlib over the byte stream
the source assembles. -/
theorem compute_hash_reference_vector :
    compute_hash envNone fsNone [] =
      "content-hash-facabdb2b0642ff20db8f3150326b37dfcc76755752109c2d917d7b9702268be".data := by
  decide

/-! ## Claim C1: determinism of compute_hash -/

/-- Claim C1: compute_hash is a pure function of the recognized named-input
values (the six DOCKER_INPUTS entries plus the file and context inputs that
locate the Dockerfile) and of the byte contents of the referenced files; two
calls with those fixed return the identical fingerprint string. -/
theorem compute_hash_deterministic (env₁ env₂ : Env) (fs₁ fs₂ : FS) (files : List PyStr)
    (hd : ∀ n ∈ DOCKER_INPUTS, get_input_value env₁ n = get_input_value env₂ n)
    (hf : get_input_value env₁ ("file".data) = get_input_value env₂ ("file".data))
    (hc : get_input_value env₁ ("context".data) = get_input_value env₂ ("context".data))
    (hfs : ∀ p ∈ sortedFiles env₁ files, fs₁ p = fs₂ p) :
    compute_hash env₁ fs₁ files = compute_hash env₂ fs₂ files := by
  have hdf : get_dockerfile env₁ = get_dockerfile env₂ := by
    unfold get_dockerfile
    rw [hf, hc]
  have hsf : sortedFiles env₁ files = sortedFiles env₂ files := by
    unfold sortedFiles
    rw [hdf]
  have hdl : (sortStrs DOCKER_INPUTS).map (dockerLine env₁) =
      (sortStrs DOCKER_INPUTS).map (dockerLine env₂) := by
    apply List.map_congr_left
    intro n hn
    unfold dockerLine
    rw [hd n ((sortStrs_perm DOCKER_INPUTS).mem_iff.mp hn)]
  have hfr : (sortedFiles env₁ files).map (fileRecord fs₁) =
      (sortedFiles env₂ files).map (fileRecord fs₂) := by
    rw [← hsf]
    apply List.map_congr_left
    intro p hp
    unfold fileRecord
    rw [hfs p hp]
  unfold compute_hash canonicalStream
  rw [hdl, hfr]

/-- Witness for C1: two syntactically different environments agreeing on every
recognized input produce the same fingerprint. -/
theorem compute_hash_deterministic_witness :
    ((∀ n ∈ DOCKER_INPUTS, get_input_value envNone n = get_input_value envNoise n) ∧
     get_input_value envNone ("file".data) = get_input_value envNoise ("file".data) ∧
     get_input_value envNone ("context".data) = get_input_value envNoise ("context".data) ∧
     (∀ p ∈ sortedFiles envNone [], fsNone p = fsNone p)) ∧
    compute_hash envNone fsNone [] = compute_hash envNoise fsNone [] :=
  ⟨⟨by decide, by decide, by decide, fun _ _ => rfl⟩,
   compute_hash_deterministic envNone envNoise fsNone fsNone []
     (by decide) (by decide) (by decide) (fun _ _ => rfl)⟩

/-! ## Claim C2: the canonical byte stream -/

/-- The six recognized input names in lexicographic order, as the claim lists
them. -/
def sixInputNamesLex : List PyStr :=
  ["annotations".data, "build-args".data, "build-contexts".data,
   "labels".data, "target".data, "ulimit".data]

/-- The hashed byte stream as the specification words describe it: for each of
the six recognized input names in lexicographic order, the bytes of the line
docker:name=repr(value) with a trailing newline, missing inputs hashed as the
empty string; then for each file path in sorted order (extra files plus the
resolved Dockerfile path) a path record, the raw file bytes, and a trailing
delimiter. -/
def fingerprintStreamSpec (env : Env) (fs : FS) (files : List PyStr) : List Nat :=
  (sixInputNamesLex.map (fun name =>
    encode ("docker:".data ++ name ++ "=".data ++ pyRepr (get_input_value env name) ++
      [Char.ofNat 10]))).flatten ++
  ((sortStrs (files ++ [get_dockerfile env])).map (fun p =>
    encode ("file:".data ++ p ++ "\n----\n".data) ++ fs p ++ encode "\n----\n".data)).flatten

/-- The source tuple of recognized names, sorted, is the lexicographic list. -/
theorem sortStrs_docker_inputs : sortStrs DOCKER_INPUTS = sixInputNamesLex := by
  decide

/-- Claim C2: compute_hash returns content-hash- followed by the hex SHA-256
digest of exactly the canonical byte stream the specification describes. -/
theorem compute_hash_canonical_stream (env : Env) (fs : FS) (files : List PyStr) :
    compute_hash env fs files =
      "content-hash-".data ++ sha256hex (fingerprintStreamSpec env fs files) := by
  unfold compute_hash canonicalStream fingerprintStreamSpec
  rw [sortStrs_docker_inputs]
  rfl

/-! ## Claim C5: permutation invariance of the extra file list -/

/-- Claim C5: permuting the list of extra file paths does not change the
fingerprint. -/
theorem compute_hash_perm_invariant (env : Env) (fs : FS) {l₁ l₂ : List PyStr}
    (h : l₁.Perm l₂) :
    compute_hash env fs l₁ = compute_hash env fs l₂ := by
  unfold compute_hash canonicalStream sortedFiles
  rw [sortStrs_eq_of_perm (h.append_right [get_dockerfile env])]

/-- Witness for C5: swapping two extra files leaves the fingerprint unchanged. -/
theorem compute_hash_perm_invariant_witness :
    (["b.txt".data, "a.txt".data] : List PyStr).Perm ["a.txt".data, "b.txt".data] ∧
    compute_hash envNone fsNone ["b.txt".data, "a.txt".data] =
      compute_hash envNone fsNone ["a.txt".data, "b.txt".data] :=
  ⟨by decide, compute_hash_perm_invariant envNone fsNone (by decide)⟩

/-! ## Claim C6: file paths are sorted but not deduplicated -/

/-- Counterexample to C6: passing the same extra file twice changes the
fingerprint, because the sorted builtin keeps duplicates and the file record
is then hashed twice. -/
theorem compute_hash_duplicate_path_changes_hash :
    compute_hash envNone fsNone ["a.txt".data, "a.txt".data] ≠
      compute_hash envNone fsNone ["a.txt".data] := by
  decide

/-- C6 as amended: the hashed path sequence is the sorted arrangement, with
multiplicity, of the extra files plus the resolved Dockerfile path; no
deduplication happens, so a duplicated path contributes its file record
twice. -/
theorem sortedFiles_sorted_no_dedup (env : Env) (files : List PyStr) :
    (sortedFiles env files).Perm (files ++ [get_dockerfile env]) ∧
    List.Sorted strLeR (sortedFiles env files) :=
  ⟨sortStrs_perm _, sortStrs_sorted _⟩

/-! ## Analysis of the tag resolver -/

/-- The image-name components of a list of tag specs, in order. -/
def namesOf (specs : List PyStr) : List PyStr := specs.map (fun s => (partColon s).1)

/-- The nonempty explicit tags a list of tag specs declares for one image
name, in order. -/
def explicitsFor (n : PyStr) (specs : List PyStr) : List PyStr :=
  specs.filterMap (fun s =>
    if (partColon s).1 = n ∧ (partColon s).2 ≠ [] then some (partColon s).2 else none)

/-- Deduplicate a list keeping first occurrences, given the elements already
seen. -/
def firstSeenFrom (seen : List PyStr) : List PyStr → List PyStr
  | [] => []
  | n :: ns => if n ∈ seen then firstSeenFrom seen ns else n :: firstSeenFrom (seen ++ [n]) ns

/-- Look an image name up in the images association list. -/
def lookupTags : List (PyStr × List PyStr) → PyStr → Option (List PyStr)
  | [], _ => none
  | p :: ps, n => if p.1 = n then some p.2 else lookupTags ps n

/-- Membership in a tag set after adding a tag. -/
theorem mem_addTag {ts : List PyStr} {t u : PyStr} : t ∈ addTag ts u ↔ t ∈ ts ∨ t = u := by
  unfold addTag
  split
  · constructor
    · exact Or.inl
    · rintro (h | rfl)
      · exact h
      · assumption
  · simp

/-- Adding a tag preserves freedom from duplicates. -/
theorem nodup_addTag {ts : List PyStr} {u : PyStr} (h : ts.Nodup) : (addTag ts u).Nodup := by
  unfold addTag
  split
  · exact h
  · next hu => simp [List.nodup_append, h, hu]

/-- Membership in a tag set built by folding additions. -/
theorem mem_foldl_addTag {l : List PyStr} {init : List PyStr} {t : PyStr} :
    t ∈ l.foldl addTag init ↔ t ∈ init ∨ t ∈ l := by
  induction l generalizing init with
  | nil => simp
  | cons a l ih =>
    rw [List.foldl_cons, ih, mem_addTag]
    simp
    tauto

/-- Folding tag additions preserves freedom from duplicates. -/
theorem nodup_foldl_addTag {l : List PyStr} {init : List PyStr} (h : init.Nodup) :
    (l.foldl addTag init).Nodup := by
  induction l generalizing init with
  | nil => exact h
  | cons a l ih => exact ih (nodup_addTag h)

/-- Updating an existing entry does not change the keys. -/
theorem addToName_map_fst (n t : PyStr) (m : List (PyStr × List PyStr)) :
    (addToName n t m).map Prod.fst = m.map Prod.fst := by
  induction m with
  | nil => rfl
  | cons p ps ih =>
    unfold addToName
    split
    · simp_all
    · simp [ih]

/-- Lookup after updating an entry. -/
theorem lookupTags_addToName (n t x : PyStr) (m : List (PyStr × List PyStr)) :
    lookupTags (addToName n t m) x =
      if x = n then (lookupTags m n).map (fun ts => addTag ts t) else lookupTags m x := by
  induction m with
  | nil => simp [addToName, lookupTags]
  | cons p ps ih =>
    unfold addToName
    by_cases hpn : p.1 = n
    · rw [if_pos hpn]
      by_cases hxn : x = n
      · subst hxn
        have hpx : p.1 = x := hpn
        simp [lookupTags, hpx, hpn]
      · have hpx : ¬p.1 = x := fun h => hxn (h.symm.trans hpn)
        simp only [lookupTags, hpx, if_false, hxn, hpn, if_neg (fun h : n = x => hxn h.symm)]
    · rw [if_neg hpn]
      by_cases hxn : x = n
      · subst hxn
        simp [lookupTags, hpn, ih]
      · by_cases hpx : p.1 = x
        · simp [lookupTags, hpx, hxn]
        · simp [lookupTags, hpx, hxn, ih]

/-- Lookup distributes over appending entries. -/
theorem lookupTags_append (m m' : List (PyStr × List PyStr)) (n : PyStr) :
    lookupTags (m ++ m') n =
      match lookupTags m n with
      | some ts => some ts
      | none => lookupTags m' n := by
  induction m with
  | nil => simp [lookupTags]
  | cons p ps ih =>
    by_cases hpn : p.1 = n
    · simp [lookupTags, hpn]
    · simp [lookupTags, hpn, ih]

/-- The key test agrees with lookup success. -/
theorem hasName_iff_lookup (m : List (PyStr × List PyStr)) (n : PyStr) :
    hasName m n = true ↔ (lookupTags m n).isSome := by
  induction m with
  | nil => simp [hasName, lookupTags]
  | cons p ps ih =>
    by_cases hpn : p.1 = n
    · simp [hasName, lookupTags, hpn]
    · simp [hasName, lookupTags, hpn, ← ih]

/-- The key test agrees with key membership. -/
theorem hasName_iff_mem (m : List (PyStr × List PyStr)) (n : PyStr) :
    hasName m n = true ↔ n ∈ m.map Prod.fst := by
  unfold hasName
  rw [List.any_eq_true]
  constructor
  · rintro ⟨p, hp, hpt⟩
    exact List.mem_map.mpr ⟨p, hp, of_decide_eq_true hpt⟩
  · intro h
    rcases List.mem_map.mp h with ⟨p, hp, hpe⟩
    exact ⟨p, hp, decide_eq_true hpe⟩

/-- A successful lookup makes the key test succeed. -/
theorem hasName_of_lookup_some {m : List (PyStr × List PyStr)} {n : PyStr} {ts : List PyStr}
    (hm : lookupTags m n = some ts) : hasName m n = true := by
  rw [hasName_iff_lookup, hm]
  rfl

/-- A failed lookup makes the key test fail. -/
theorem hasName_of_lookup_none {m : List (PyStr × List PyStr)} {n : PyStr}
    (hm : lookupTags m n = none) : hasName m n = false := by
  rw [Bool.eq_false_iff]
  intro h
  rw [hasName_iff_lookup, hm] at h
  simp at h

/-- Splitting the explicit tags of a spec list at its head. -/
theorem explicitsFor_cons (n s : PyStr) (rest : List PyStr) :
    explicitsFor n (s :: rest) =
      if (partColon s).1 = n ∧ (partColon s).2 ≠ [] then
        (partColon s).2 :: explicitsFor n rest
      else explicitsFor n rest := by
  by_cases h : (partColon s).1 = n ∧ (partColon s).2 ≠ []
  · simp [explicitsFor, List.filterMap_cons, h]
  · simp [explicitsFor, List.filterMap_cons, h]

/-- Characterization of the images mapping built by the loop: looking up an
image name yields the fingerprint-seeded tag set folded over the explicit tags
that name receives, and fails exactly for names that never occur. -/
theorem lookupTags_foldl (F : PyStr) (specs : List PyStr) :
    ∀ (m : List (PyStr × List PyStr)) (n : PyStr),
    lookupTags (specs.foldl (imagesStep F) m) n =
      match lookupTags m n with
      | some ts => some ((explicitsFor n specs).foldl addTag ts)
      | none =>
        if n ∈ namesOf specs then some ((explicitsFor n specs).foldl addTag [F]) else none := by
  induction specs with
  | nil =>
    intro m n
    cases hm : lookupTags m n <;> simp [explicitsFor, namesOf, hm]
  | cons s rest ih =>
    intro m n
    rw [List.foldl_cons, ih, explicitsFor_cons]
    by_cases hn : (partColon s).1 = n
    · subst hn
      by_cases htag : (partColon s).2 = []
      · cases hm : lookupTags m (partColon s).1 with
        | some ts =>
          have hHas := hasName_of_lookup_some hm
          simp [imagesStep, hHas, htag, hm, namesOf]
        | none =>
          have hHas := hasName_of_lookup_none hm
          simp [imagesStep, hHas, htag, hm, namesOf, lookupTags_append, lookupTags]
      · cases hm : lookupTags m (partColon s).1 with
        | some ts =>
          have hHas := hasName_of_lookup_some hm
          simp [imagesStep, hHas, htag, hm, namesOf, lookupTags_addToName, List.foldl_cons]
        | none =>
          have hHas := hasName_of_lookup_none hm
          simp [imagesStep, hHas, htag, hm, namesOf, lookupTags_append, lookupTags,
            List.foldl_cons]
    · have hnn : ¬n = (partColon s).1 := fun h => hn h.symm
      have hmem : (n ∈ namesOf (s :: rest)) = (n ∈ namesOf rest) := by
        simp [namesOf, hnn]
      have hlook : lookupTags (imagesStep F m s) n = lookupTags m n := by
        unfold imagesStep
        by_cases hHas : hasName m (partColon s).1
        · rw [if_pos hHas]
          by_cases htag : (partColon s).2 = []
          · simp [htag]
          · simp [htag, lookupTags_addToName, hnn]
        · rw [if_neg hHas]
          rw [lookupTags_append]
          cases hm : lookupTags m n with
          | some ts => rfl
          | none => simp [lookupTags, hnn, fun h : (partColon s).1 = n => hn h]
      rw [hlook]
      have hcond : ¬((partColon s).1 = n ∧ (partColon s).2 ≠ []) := fun h => hn h.1
      cases hm : lookupTags m n with
      | some ts => simp [hcond]
      | none => simp [hcond, namesOf, hnn]

/-- The first-seen deduplication of a list with a head element. -/
theorem firstSeenFrom_cons (seen : List PyStr) (n : PyStr) (ns : List PyStr) :
    firstSeenFrom seen (n :: ns) =
      if n ∈ seen then firstSeenFrom seen ns else n :: firstSeenFrom (seen ++ [n]) ns := rfl

/-- The keys of the images mapping built by the loop: the starting keys
followed by the not-yet-seen spec names in first-seen order. -/
theorem map_fst_foldl (F : PyStr) (specs : List PyStr) :
    ∀ m : List (PyStr × List PyStr),
    (specs.foldl (imagesStep F) m).map Prod.fst =
      m.map Prod.fst ++ firstSeenFrom (m.map Prod.fst) (namesOf specs) := by
  induction specs with
  | nil =>
    intro m
    simp [namesOf, firstSeenFrom]
  | cons s rest ih =>
    intro m
    rw [List.foldl_cons, ih]
    have hnames : namesOf (s :: rest) = (partColon s).1 :: namesOf rest := rfl
    by_cases hHas : hasName m (partColon s).1
    · have hmem : (partColon s).1 ∈ m.map Prod.fst := (hasName_iff_mem m _).mp hHas
      have hstep : (imagesStep F m s).map Prod.fst = m.map Prod.fst := by
        unfold imagesStep
        rw [if_pos hHas]
        split
        · exact addToName_map_fst _ _ m
        · rfl
      rw [hstep, hnames, firstSeenFrom_cons, if_pos hmem]
    · have hmem : (partColon s).1 ∉ m.map Prod.fst :=
        fun h => hHas ((hasName_iff_mem m _).mpr h)
      have hstep : (imagesStep F m s).map Prod.fst = m.map Prod.fst ++ [(partColon s).1] := by
        unfold imagesStep
        rw [if_neg hHas]
        simp
      rw [hstep, hnames, firstSeenFrom_cons, if_neg hmem, List.append_assoc]
      rfl

/-- Every element of a first-seen deduplication comes from the input list. -/
theorem mem_of_mem_firstSeenFrom {x : PyStr} :
    ∀ {seen l : List PyStr}, x ∈ firstSeenFrom seen l → x ∈ l := by
  intro seen l
  induction l generalizing seen with
  | nil => simp [firstSeenFrom]
  | cons n ns ih =>
    unfold firstSeenFrom
    split
    · intro h
      exact List.mem_cons_of_mem _ (ih h)
    · intro h
      rcases List.mem_cons.mp h with rfl | h
      · exact List.mem_cons_self _ _
      · exact List.mem_cons_of_mem _ (ih h)

/-- A first-seen deduplication avoids the already-seen elements. -/
theorem firstSeenFrom_not_mem_seen {x : PyStr} :
    ∀ {seen l : List PyStr}, x ∈ firstSeenFrom seen l → x ∉ seen := by
  intro seen l
  induction l generalizing seen with
  | nil => simp [firstSeenFrom]
  | cons n ns ih =>
    unfold firstSeenFrom
    split
    · exact ih
    · intro h
      rcases List.mem_cons.mp h with rfl | h
      · assumption
      · intro hx
        exact ih h (by simp [hx])

/-- Prefixing the seen elements keeps a first-seen deduplication
duplicate-free. -/
theorem nodup_append_firstSeenFrom :
    ∀ {l seen : List PyStr}, seen.Nodup → (seen ++ firstSeenFrom seen l).Nodup := by
  intro l
  induction l with
  | nil =>
    intro seen hseen
    simpa [firstSeenFrom] using hseen
  | cons n ns ih =>
    intro seen hseen
    unfold firstSeenFrom
    split
    · exact ih hseen
    · next hmem =>
      have h1 : (seen ++ [n]).Nodup := by simp [List.nodup_append, hseen, hmem]
      have h2 := ih h1
      rw [List.append_cons]
      exact h2

/-- The keys of the final images mapping are duplicate-free. -/
theorem nodup_map_fst_imagesOf (F : PyStr) (specs : List PyStr) :
    ((imagesOf F specs).map Prod.fst).Nodup := by
  unfold imagesOf
  rw [map_fst_foldl F specs []]
  simpa using @nodup_append_firstSeenFrom (namesOf specs) [] List.nodup_nil

/-- With duplicate-free keys, membership in the association list is exactly
lookup success. -/
theorem mem_iff_lookupTags {m : List (PyStr × List PyStr)} (hnd : (m.map Prod.fst).Nodup)
    (n : PyStr) (ts : List PyStr) :
    (n, ts) ∈ m ↔ lookupTags m n = some ts := by
  induction m with
  | nil => simp [lookupTags]
  | cons p ps ih =>
    rw [List.map_cons, List.nodup_cons] at hnd
    by_cases hpn : p.1 = n
    · subst hpn
      unfold lookupTags
      rw [if_pos rfl]
      constructor
      · intro h
        rcases List.mem_cons.mp h with h | h
        · rw [← h]
        · exact absurd (List.mem_map.mpr ⟨(p.1, ts), h, rfl⟩) hnd.1
      · intro h
        cases h
        exact List.mem_cons_self _ _
    · unfold lookupTags
      rw [if_neg hpn]
      rw [← ih hnd.2]
      constructor
      · intro h
        rcases List.mem_cons.mp h with h | h
        · exact absurd (congrArg Prod.fst h.symm) hpn
        · exact h
      · exact List.mem_cons_of_mem _

/-- The explicit tags of one image name are the nonempty tag components of the
specs naming it. -/
theorem mem_explicitsFor {t n : PyStr} {specs : List PyStr} :
    t ∈ explicitsFor n specs ↔ t ≠ [] ∧ ∃ s ∈ specs, partColon s = (n, t) := by
  unfold explicitsFor
  rw [List.mem_filterMap]
  constructor
  · rintro ⟨s, hs, hf⟩
    by_cases hc : (partColon s).1 = n ∧ (partColon s).2 ≠ []
    · rw [if_pos hc] at hf
      have ht : (partColon s).2 = t := Option.some.inj hf
      refine ⟨ht ▸ hc.2, s, hs, ?_⟩
      rw [← hc.1, ← ht]
    · rw [if_neg hc] at hf
      cases hf
  · rintro ⟨ht, s, hs, hps⟩
    refine ⟨s, hs, ?_⟩
    have h1 : (partColon s).1 = n := by rw [hps]
    have h2 : (partColon s).2 = t := by rw [hps]
    rw [if_pos ⟨h1, h2.symm ▸ ht⟩, h2]

/-! ## Claim C3: the resolved tag sets -/

/-- Claim C3: for every list of tag specs and fingerprint, the per-name tag
set of the resolver is exactly the explicit tags seen for that name plus the
fingerprint, without duplicates — so every name receives the fingerprint tag
even when it has explicit tags — and the content-tag list holds exactly one
name-colon-fingerprint entry per distinct name, in first-seen-name order. -/
theorem resolveTags_spec (specs : List PyStr) (F : PyStr) (hne : specs ≠ []) :
    (imagesOf F specs).map Prod.fst = firstSeenFrom [] (namesOf specs) ∧
    ((imagesOf F specs).map Prod.fst).Nodup ∧
    (∀ p ∈ imagesOf F specs, p.2.Nodup ∧ F ∈ p.2 ∧
      (∀ t, t ∈ p.2 ↔ t = F ∨ (t ≠ [] ∧ ∃ s ∈ specs, partColon s = (p.1, t)))) ∧
    (resolveTags specs F).2 =
      (firstSeenFrom [] (namesOf specs)).map (fun n => n ++ [':'] ++ F) := by
  have hkeys : (imagesOf F specs).map Prod.fst = firstSeenFrom [] (namesOf specs) := by
    unfold imagesOf
    rw [map_fst_foldl F specs []]
    simp
  have hnd := nodup_map_fst_imagesOf F specs
  refine ⟨hkeys, hnd, ?_, ?_⟩
  · intro p hp
    have hp' : (p.1, p.2) ∈ imagesOf F specs := by simpa using hp
    have hlook := (mem_iff_lookupTags hnd p.1 p.2).mp hp'
    have hpn : p.1 ∈ namesOf specs := by
      have hmem : p.1 ∈ (imagesOf F specs).map Prod.fst := List.mem_map.mpr ⟨p, hp, rfl⟩
      rw [hkeys] at hmem
      exact mem_of_mem_firstSeenFrom hmem
    have hchar := lookupTags_foldl F specs [] p.1
    unfold imagesOf at hlook
    rw [hchar] at hlook
    rw [show lookupTags [] p.1 = none from rfl] at hlook
    rw [if_pos hpn] at hlook
    have hps : p.2 = (explicitsFor p.1 specs).foldl addTag [F] := (Option.some.inj hlook).symm
    refine ⟨?_, ?_, ?_⟩
    · rw [hps]
      exact nodup_foldl_addTag (by simp)
    · rw [hps, mem_foldl_addTag]
      left
      simp
    · intro t
      rw [hps, mem_foldl_addTag, mem_explicitsFor, List.mem_singleton]
  · have hct : (resolveTags specs F).2 = (imagesOf F specs).map (fun p => p.1 ++ [':'] ++ F) :=
      rfl
    rw [hct, ← hkeys, List.map_map]
    rfl

/-- Witness for C3: on the single spec user/app:latest the content tags are
the first-seen names suffixed with the fingerprint. -/
theorem resolveTags_spec_witness :
    (["user/app:latest".data] : List PyStr) ≠ [] ∧
    (resolveTags ["user/app:latest".data] ("F".data)).2 =
      (firstSeenFrom [] (namesOf ["user/app:latest".data])).map
        (fun n => n ++ [':'] ++ "F".data) :=
  ⟨by decide, (resolveTags_spec ["user/app:latest".data] ("F".data) (by decide)).2.2.2⟩

/-! ## Claim C8: empty-name tag specs are not rejected -/

/-- Counterexample to C8: the spec consisting of a colon and a tag is not
rejected; resolution succeeds, records the empty image name, and emits a
content tag whose name part is empty. -/
theorem resolveTags_empty_name_accepted :
    (resolveTags [":v".data] ("F".data)).2 = [":F".data] ∧
    ([] : PyStr) ∈ (imagesOf ("F".data) [":v".data]).map Prod.fst := by
  decide

/-- C8 as amended: a spec with empty name part is treated as declaring the
empty image name: its tag joins that tag set and the content tag with empty
name part is emitted, with no failure. -/
theorem resolveTags_empty_name_entries (t F : PyStr) (ht : t ≠ []) (htF : t ≠ F) :
    (imagesOf F [':' :: t]).map Prod.fst = [[]] ∧
    lookupTags (imagesOf F [':' :: t]) [] = some [F, t] ∧
    (resolveTags [':' :: t] F).2 = [[':'] ++ F] := by
  have hpart : partColon (':' :: t) = ([], t) := rfl
  have himg : imagesOf F [':' :: t] = [([], [F, t])] := by
    unfold imagesOf
    rw [List.foldl_cons, List.foldl_nil]
    unfold imagesStep
    rw [hpart]
    have hhas : hasName [] ([] : PyStr) = false := rfl
    simp only [hhas, Bool.false_eq_true, if_false, ht, ne_eq, not_false_iff, if_true]
    unfold addTag
    simp [htF]
  rw [himg]
  refine ⟨rfl, rfl, ?_⟩
  rfl

/-- Witness for C8 as amended: the concrete spec colon-v with fingerprint F. -/
theorem resolveTags_empty_name_entries_witness :
    (("v".data : PyStr) ≠ [] ∧ ("v".data : PyStr) ≠ "F".data) ∧
    ((imagesOf ("F".data) [':' :: "v".data]).map Prod.fst = [[]] ∧
     lookupTags (imagesOf ("F".data) [':' :: "v".data]) [] = some ["F".data, "v".data] ∧
     (resolveTags [':' :: "v".data] ("F".data)).2 = [[':'] ++ "F".data]) :=
  ⟨⟨by decide, by decide⟩,
   resolveTags_empty_name_entries ("v".data) ("F".data) (by decide) (by decide)⟩

/-! ## Analysis of main -/

/-- get_image_names fails only by the missing required tags input. -/
theorem get_image_names_error {env : Env} {F : PyStr} {e : PyError}
    (h : get_image_names env F = .error e) : e = .missingInput ("tags".data) := by
  unfold get_image_names get_tags _get_input_list get_input at h
  by_cases hC : (true = true ∧ _get_input env ("tags".data) = [])
  · rw [if_pos hC] at h
    cases h
    rfl
  · rw [if_neg hC] at h
    cases h

/-- A successful get_image_names is the resolution of the parsed tags input. -/
theorem get_image_names_ok {env : Env} {F : PyStr} {x : List PyStr × List PyStr}
    (h : get_image_names env F = .ok x) :
    ∃ specs, get_tags env = .ok specs ∧ x = resolveTags specs F := by
  unfold get_image_names at h
  cases ht : get_tags env with
  | ok specs =>
    rw [ht] at h
    cases h
    exact ⟨specs, rfl, rfl⟩
  | error e =>
    rw [ht] at h
    cases h

/-- The name part produced by splitting a spec at its first colon contains no
colon. -/
theorem partColon_fst_no_colon (s : List Char) : ':' ∉ (partColon s).1 := by
  induction s with
  | nil => simp [partColon]
  | cons c cs ih =>
    unfold partColon
    by_cases hc : c = ':'
    · simp [hc]
    · simp only [hc, if_false]
      intro h
      rcases List.mem_cons.mp h with h | h
      · exact hc h.symm
      · exact ih h

/-- Splitting a colon-free name joined to a tag by a colon recovers both. -/
theorem partColon_recombine {n : PyStr} (t : PyStr) (h : ':' ∉ n) :
    partColon (n ++ ':' :: t) = (n, t) := by
  induction n with
  | nil => simp [partColon]
  | cons c cs ih =>
    rw [List.cons_append]
    unfold partColon
    have hc : ¬c = ':' := fun hh => h (hh ▸ List.mem_cons_self c cs)
    have h' : ':' ∉ cs := fun hh => h (List.mem_cons_of_mem _ hh)
    rw [if_neg hc]
    simp only [ih h']

/-- Every key of the images mapping is colon-free. -/
theorem imagesOf_keys_no_colon {F : PyStr} {specs : List PyStr} {p : PyStr × List PyStr}
    (hp : p ∈ imagesOf F specs) : ':' ∉ p.1 := by
  have h1 : p.1 ∈ (imagesOf F specs).map Prod.fst := List.mem_map.mpr ⟨p, hp, rfl⟩
  rw [imagesOf, map_fst_foldl F specs []] at h1
  simp only [List.map_nil, List.nil_append] at h1
  have h2 := mem_of_mem_firstSeenFrom h1
  rcases List.mem_map.mp h2 with ⟨s, _, hs2⟩
  rw [← hs2]
  exact partColon_fst_no_colon s

/-- Events of other kinds carry no output. -/
theorem outSel_readFile (n p : PyStr) : outSel n (Event.readFile p) = none := rfl

/-- Events of other kinds carry no output. -/
theorem outSel_checkImage (n x : PyStr) (b : Bool) : outSel n (Event.checkImage x b) = none := rfl

/-- Output lookup skips a run of events emitting nothing. -/
theorem outputValue_append_silent (l₁ l₂ : List Event) (n : PyStr)
    (h : ∀ e ∈ l₁, outSel n e = none) :
    outputValue (l₁ ++ l₂) n = outputValue l₂ n := by
  unfold outputValue
  rw [List.filterMap_append]
  have h1 : l₁.filterMap (outSel n) = [] := by
    rw [List.filterMap_eq_nil_iff]
    exact h
  rw [h1, List.nil_append]

/-- Output lookup skips the file-read events. -/
theorem outputValue_skip_reads (paths : List PyStr) (rest : List Event) (n : PyStr) :
    outputValue (paths.map Event.readFile ++ rest) n = outputValue rest n := by
  apply outputValue_append_silent
  intro e he
  rcases List.mem_map.mp he with ⟨p, _, rfl⟩
  rfl

/-- Output lookup skips the existence-check events. -/
theorem outputValue_skip_checks (checks : List (PyStr × Bool)) (rest : List Event) (n : PyStr) :
    outputValue (checks.map (fun c => Event.checkImage c.1 c.2) ++ rest) n =
      outputValue rest n := by
  apply outputValue_append_silent
  intro e he
  rcases List.mem_map.mp he with ⟨c, _, rfl⟩
  rfl

/-- The combined existence result over the per-tag checks is the disjunction
over the tags. -/
theorem checks_any (l : List PyStr) (ex : PyStr → Bool) :
    ((l.map (fun x => (x, ex x))).any (fun c => c.2)) = l.any ex := by
  induction l with
  | nil => rfl
  | cons a l ih => simp [ih]

/-! ## Claim C4: the build-required outputs -/

/-- Claim C4: the emitted tag-existed output is true exactly when the
existence oracle accepts at least one content tag, and the emitted
build-required output is its logical negation. -/
theorem main_build_required_outputs (env : Env) (fs : FS) (ex : PyStr → Bool)
    (extra : List PyStr) (allTags contentTags : List PyStr)
    (hE : get_image_names env (compute_hash env fs extra) = .ok (allTags, contentTags)) :
    outputValue (main env fs ex extra).1 ("tag-existed".data) =
      some (.bool (contentTags.any ex)) ∧
    outputValue (main env fs ex extra).1 ("build-required".data) =
      some (.bool (!contentTags.any ex)) := by
  simp only [main, hE]
  cases contentTags with
  | nil =>
    constructor <;>
      · dsimp only
        rw [List.append_assoc, outputValue_skip_reads, outputValue_skip_checks, checks_any]
        rfl
  | cons ct cts =>
    by_cases hIf : compute_hash env fs extra = (partColon ct).2
    · constructor <;>
        · dsimp only
          rw [if_pos hIf]
          dsimp only
          rw [List.append_assoc, List.append_assoc, outputValue_skip_reads,
            outputValue_skip_checks, checks_any]
          rfl
    · constructor <;>
        · dsimp only
          rw [if_neg hIf]
          dsimp only
          rw [List.append_assoc, outputValue_skip_reads, outputValue_skip_checks, checks_any]
          rfl

/-- Witness for C4: the single spec user/app with an oracle reporting nothing
exists. -/
theorem main_build_required_outputs_witness :
    get_image_names envUserApp (compute_hash envUserApp fsNone []) =
      .ok ((resolveTags ["user/app".data] (compute_hash envUserApp fsNone [])).1,
           (resolveTags ["user/app".data] (compute_hash envUserApp fsNone [])).2) ∧
    (outputValue (main envUserApp fsNone exNone []).1 ("tag-existed".data) =
        some (.bool ((resolveTags ["user/app".data]
          (compute_hash envUserApp fsNone [])).2.any exNone)) ∧
     outputValue (main envUserApp fsNone exNone []).1 ("build-required".data) =
        some (.bool (!(resolveTags ["user/app".data]
          (compute_hash envUserApp fsNone [])).2.any exNone))) :=
  ⟨rfl, main_build_required_outputs envUserApp fsNone exNone [] _ _ rfl⟩

/-! ## Claim C7: missing tags input -/

/-- Counterexample to C7: with the tags input absent the run does fail naming
tags, but hashing has already happened — the trace records the Dockerfile
read performed by compute_hash before the failure. -/
theorem main_missing_tags_reads_files :
    (main envNone fsNone exNone []).2 = some (.missingInput ("tags".data)) ∧
    Event.readFile ("Dockerfile".data) ∈ (main envNone fsNone exNone []).1 := by
  decide

/-- C7 as amended: when the raw tags input is empty, main raises MissingInput
naming tags, with no existence query and no output emitted; the hash
computation and its file reads, however, are performed before the failure. -/
theorem main_missing_tags_fails_after_hashing (env : Env) (fs : FS) (ex : PyStr → Bool)
    (extra : List PyStr) (h : _get_input env ("tags".data) = []) :
    (main env fs ex extra).2 = some (.missingInput ("tags".data)) ∧
    (main env fs ex extra).1 = (sortedFiles env extra).map Event.readFile := by
  have hE : get_image_names env (compute_hash env fs extra) =
      .error (.missingInput ("tags".data)) := by
    unfold get_image_names get_tags _get_input_list get_input
    rw [if_pos ⟨rfl, h⟩]
    rfl
  constructor
  · simp only [main, hE]
  · simp only [main, hE]

/-- Witness for C7 as amended: the all-absent environment. -/
theorem main_missing_tags_fails_after_hashing_witness :
    _get_input envNone ("tags".data) = [] ∧
    ((main envNone fsNone exNone []).2 = some (.missingInput ("tags".data)) ∧
     (main envNone fsNone exNone []).1 = (sortedFiles envNone []).map Event.readFile) :=
  ⟨rfl, main_missing_tags_fails_after_hashing envNone fsNone exNone [] rfl⟩

/-! ## Claim C9: the assert in main always holds -/

/-- Claim C9: main never raises AssertionError: splitting the first content
tag at its first colon recovers the fingerprint exactly, because resolver
names are colon-free. -/
theorem main_no_assertion_error (env : Env) (fs : FS) (ex : PyStr → Bool)
    (extra : List PyStr) :
    (main env fs ex extra).2 ≠ some .assertionError := by
  simp only [main]
  cases hE : get_image_names env (compute_hash env fs extra) with
  | error e =>
    have he := get_image_names_error hE
    simp [he]
  | ok tags =>
    rcases get_image_names_ok hE with ⟨specs, _, htags⟩
    subst htags
    cases hm : imagesOf (compute_hash env fs extra) specs with
    | nil => simp [resolveTags, hm]
    | cons p ps =>
      have hnc : ':' ∉ p.1 := imagesOf_keys_no_colon (hm ▸ List.mem_cons_self p ps)
      simp [resolveTags, hm, partColon_recombine _ hnc]

/-! ## Claim C10: whitespace-only tags input -/

/-- Claim C10: a tags input that is nonempty but strips to nothing passes the
required-input check, parses to the empty tag list, and makes main fail with
the index error on the first content tag instead of the missing-input error. -/
theorem main_whitespace_tags_index_error (env : Env) (fs : FS) (ex : PyStr → Bool)
    (extra : List PyStr) (h1 : _get_input env ("tags".data) ≠ [])
    (h2 : pyStrip (_get_input env ("tags".data)) = []) :
    get_tags env = .ok [] ∧ (main env fs ex extra).2 = some .indexError := by
  have hget : get_tags env = .ok [] := by
    unfold get_tags _get_input_list get_input
    rw [if_neg (fun hc => h1 hc.2)]
    simp only [Res.map]
    unfold get_input_value
    rw [h2]
    rfl
  have hE : get_image_names env (compute_hash env fs extra) = .ok ([], []) := by
    unfold get_image_names
    rw [hget]
    rfl
  refine ⟨hget, ?_⟩
  simp only [main, hE]

/-- Witness for C10: a tags input consisting of one space. -/
theorem main_whitespace_tags_index_error_witness :
    (_get_input envBlankTags ("tags".data) ≠ [] ∧
     pyStrip (_get_input envBlankTags ("tags".data)) = []) ∧
    (get_tags envBlankTags = .ok [] ∧
     (main envBlankTags fsNone exNone []).2 = some .indexError) :=
  ⟨⟨by decide, by decide⟩,
   main_whitespace_tags_index_error envBlankTags fsNone exNone [] (by decide) (by decide)⟩

end LazyDocker
